import Mathlib

/-!
# Verification of the morphological extrema subsystem (`skimage/morphology/extrema.py`)

Shallow embedding of the extrema module.  Images are flattened to lists of
pixel values; a structuring element / neighborhood is abstracted to an
adjacency relation `adj : ℕ → ℕ → Bool` on flat pixel indices (the claims
quantify over every neighborhood, so nothing is lost by this abstraction).

Machine integers of a dtype with range `[tmin, tmax]` are modelled as `ℤ`
together with explicit wraparound `wrapInt` (numpy's elementwise arithmetic
on fixed-width integers is modular); floating-point pixels are modelled as
`ℚ` with the dtype's `resolution` an explicit parameter, since the claims
under test concern the pipeline structure and exact order/arithmetic
reasoning, not rounding.  The dtype dispatch
`np.issubdtype(img.dtype, 'half')` in the source resolves, under the numpy
contemporary with this code, to "the element type is floating point", which
selects between the integer pipeline (`...Int` definitions) and the floating
pipeline (`...Float` definitions) below.

The greyscale reconstruction primitive (`greyreconstruct.reconstruction`)
is imported by the source but is not part of the sources under verification;
it is modelled from the spec (see `reconstruction` below).
-/

/-- Decidable equality of `Except` results, for evaluating the model on
concrete inputs. -/
instance {ε α : Type} [DecidableEq ε] [DecidableEq α] : DecidableEq (Except ε α) := by
  intro a b
  cases a with
  | ok x =>
    cases b with
    | ok y =>
      exact if h : x = y then isTrue (by rw [h])
        else isFalse (by intro hc; cases hc; exact h rfl)
    | error y => exact isFalse (by intro hc; cases hc)
  | error x =>
    cases b with
    | ok y => exact isFalse (by intro hc; cases hc)
    | error y =>
      exact if h : x = y then isTrue (by rw [h])
        else isFalse (by intro hc; cases hc; exact h rfl)

namespace Extrema

/-- Wraparound of an integer into the dtype range `[tmin, tmax]`
(numpy's modular arithmetic for fixed-width integer dtypes). -/
def wrapInt (tmin tmax x : ℤ) : ℤ :=
  tmin + (x - tmin) % (tmax - tmin + 1)

/-- `_add_constant_clip(img, const_value)` from `extrema.py`: the dtype-wrapped
sum `img + const_value`, with every element where `img > max_dtype - const_value`
overwritten by `max_dtype`; raises `ValueError` when
`const_value > max_dtype - min_dtype`.  (The two adjacent string literals of the
source concatenate without a space.) -/
def addConstantClip (tmin tmax : ℤ) (img : List ℤ) (c : ℤ) : Except String (List ℤ) :=
  if tmax - tmin < c then
    .error "The added constant is not compatiblewith the image data type."
  else
    .ok (img.map fun v => if tmax - c < v then tmax else wrapInt tmin tmax (v + c))

/-- `_subtract_constant_clip(img, const_value)` from `extrema.py`: the
dtype-wrapped difference `img - const_value`, with every element where
`img < const_value + min_dtype` overwritten by `min_dtype`; raises `ValueError`
when `const_value > max_dtype - min_dtype`. -/
def subtractConstantClip (tmin tmax : ℤ) (img : List ℤ) (c : ℤ) : Except String (List ℤ) :=
  if tmax - tmin < c then
    .error "The subtracted constant is not compatiblewith the image data type."
  else
    .ok (img.map fun v => if v < c + tmin then tmin else wrapInt tmin tmax (v - c))

/-- A pixel value lies in the dtype range. -/
def InRange (tmin tmax : ℤ) (img : List ℤ) : Prop :=
  ∀ v ∈ img, tmin ≤ v ∧ v ≤ tmax

theorem wrapInt_eq_self (tmin tmax x : ℤ) (h1 : tmin ≤ x) (h2 : x ≤ tmax) :
    wrapInt tmin tmax x = x := by
  unfold wrapInt
  have hm : 0 ≤ x - tmin := by omega
  have hlt : x - tmin < tmax - tmin + 1 := by omega
  rw [Int.emod_eq_of_lt hm hlt]
  omega

theorem addConstantClip_eq (tmin tmax : ℤ) (img : List ℤ) (c : ℤ)
    (hc0 : 0 ≤ c) (hc : c ≤ tmax - tmin) (hr : InRange tmin tmax img) :
    addConstantClip tmin tmax img c =
      .ok (img.map fun v => if tmax < v + c then tmax else v + c) := by
  unfold addConstantClip
  rw [if_neg (by omega)]
  refine congrArg Except.ok (List.map_congr_left ?_)
  intro v hv
  obtain ⟨h1, h2⟩ := hr v hv
  by_cases hcase : tmax - c < v
  · rw [if_pos hcase, if_pos (by omega)]
  · rw [if_neg hcase, if_neg (by omega), wrapInt_eq_self _ _ _ (by omega) (by omega)]

theorem subtractConstantClip_eq (tmin tmax : ℤ) (img : List ℤ) (c : ℤ)
    (hc0 : 0 ≤ c) (hc : c ≤ tmax - tmin) (hr : InRange tmin tmax img) :
    subtractConstantClip tmin tmax img c =
      .ok (img.map fun v => if v - c < tmin then tmin else v - c) := by
  unfold subtractConstantClip
  rw [if_neg (by omega)]
  refine congrArg Except.ok (List.map_congr_left ?_)
  intro v hv
  obtain ⟨h1, h2⟩ := hr v hv
  by_cases hcase : v < c + tmin
  · rw [if_pos hcase, if_pos (by omega)]
  · rw [if_neg hcase, if_neg (by omega), wrapInt_eq_self _ _ _ (by omega) (by omega)]

end Extrema

/-- **C2**: for every integer image (pixels within the dtype range
`[tmin, tmax]`) and every constant `c` with `0 ≤ c ≤ tmax - tmin`,
`_add_constant_clip` sets every element whose unclipped sum `v + c` would
exceed `tmax` exactly to `tmax` and every other element to `v + c`;
`_subtract_constant_clip` sets every element whose unclipped difference
`v - c` would go below `tmin` exactly to `tmin` and every other element to
`v - c`; and on the flattened uint8 array
`[250,251,5,5,100,200,253,252,4,10,1,3]` with `c = 4` the subtraction yields
`[246,247,1,1,96,196,249,248,0,6,0,0]`. -/
theorem C2_clipped_arithmetic (tmin tmax : ℤ) (img : List ℤ) (c : ℤ)
    (hc0 : 0 ≤ c) (hc : c ≤ tmax - tmin) (hr : Extrema.InRange tmin tmax img) :
    Extrema.addConstantClip tmin tmax img c =
      .ok (img.map fun v => if tmax < v + c then tmax else v + c) ∧
    Extrema.subtractConstantClip tmin tmax img c =
      .ok (img.map fun v => if v - c < tmin then tmin else v - c) ∧
    Extrema.subtractConstantClip 0 255 [250, 251, 5, 5, 100, 200, 253, 252, 4, 10, 1, 3] 4 =
      .ok [246, 247, 1, 1, 96, 196, 249, 248, 0, 6, 0, 0] := by
  refine ⟨Extrema.addConstantClip_eq tmin tmax img c hc0 hc hr,
          Extrema.subtractConstantClip_eq tmin tmax img c hc0 hc hr, ?_⟩
  rfl

/-- Witness for C2 at the uint8 range `[0, 255]`, `c = 4`, image `[10, 253]`. -/
theorem C2_clipped_arithmetic_witness :
    Extrema.addConstantClip 0 255 [10, 253] 4 =
      .ok ([10, 253].map fun v => if 255 < v + 4 then 255 else v + 4) ∧
    Extrema.subtractConstantClip 0 255 [10, 253] 4 =
      .ok ([10, 253].map fun v => if v - 4 < 0 then 0 else v - 4) ∧
    Extrema.subtractConstantClip 0 255 [250, 251, 5, 5, 100, 200, 253, 252, 4, 10, 1, 3] 4 =
      .ok [246, 247, 1, 1, 96, 196, 249, 248, 0, 6, 0, 0] :=
  C2_clipped_arithmetic 0 255 [10, 253] 4 (by decide) (by decide)
    (by intro v hv; fin_cases hv <;> exact ⟨by decide, by decide⟩)

/-- **C3**: `_add_constant_clip` and `_subtract_constant_clip` raise a
`ValueError` if and only if the constant exceeds `tmax - tmin`; otherwise they
return a result.  (The input image is a pure value in this embedding, so it is
never modified.) -/
theorem C3_domain_error_iff (tmin tmax : ℤ) (img : List ℤ) (c : ℤ) :
    ((∃ e, Extrema.addConstantClip tmin tmax img c = .error e) ↔ tmax - tmin < c) ∧
    ((∃ e, Extrema.subtractConstantClip tmin tmax img c = .error e) ↔ tmax - tmin < c) := by
  unfold Extrema.addConstantClip Extrema.subtractConstantClip
  by_cases hcase : tmax - tmin < c
  · rw [if_pos hcase, if_pos hcase]
    exact ⟨⟨fun _ => hcase, fun _ => ⟨_, rfl⟩⟩, ⟨fun _ => hcase, fun _ => ⟨_, rfl⟩⟩⟩
  · rw [if_neg hcase, if_neg hcase]
    constructor <;>
      exact Iff.intro (fun he => by obtain ⟨e, he⟩ := he; cases he)
        (fun h => absurd h hcase)

/-- **C7 counterexample**: on the uint8 image `[1]` with `c = 4`, the element is
clamped during the subtraction (`1 < 0 + 4`), yet
`add_clipped(subtract_clipped([1], 4), 4) = [4]`, which is neither the type
extreme `0` nor the original value `1`: the claim that clamped elements stay at
the type extreme in the final result is false. -/
theorem C7_counterexample :
    (Extrema.subtractConstantClip 0 255 [1] 4).bind
        (fun w => Extrema.addConstantClip 0 255 w 4) = .ok [4] ∧
    (1 : ℤ) < 0 + 4 ∧ (4 : ℤ) ≠ 0 ∧ (4 : ℤ) ≠ 1 := by
  refine ⟨rfl, by decide, by decide, by decide⟩

/-- **C7 amended**: for every integer image within the dtype range and every
constant `c` with `0 ≤ c ≤ tmax - tmin`,
`add_clipped(subtract_clipped(image, c), c)` equals `image` at every element
where no clamping occurred during the subtraction; an element that was clamped
(i.e. `v < tmin + c`) comes out as `tmin + c` (the type minimum shifted back
up), not at the type extreme. -/
theorem C7_round_trip (tmin tmax : ℤ) (img : List ℤ) (c : ℤ)
    (hc0 : 0 ≤ c) (hc : c ≤ tmax - tmin) (hr : Extrema.InRange tmin tmax img) :
    (Extrema.subtractConstantClip tmin tmax img c).bind
        (fun w => Extrema.addConstantClip tmin tmax w c) =
      .ok (img.map fun v => if v < tmin + c then tmin + c else v) := by
  rw [Extrema.subtractConstantClip_eq tmin tmax img c hc0 hc hr]
  have hr' : Extrema.InRange tmin tmax (img.map fun v => if v - c < tmin then tmin else v - c) := by
    intro w hw
    rw [List.mem_map] at hw
    obtain ⟨v, hv, rfl⟩ := hw
    obtain ⟨h1, h2⟩ := hr v hv
    by_cases hcase : v - c < tmin
    · rw [if_pos hcase]; omega
    · rw [if_neg hcase]; omega
  rw [Except.bind, Extrema.addConstantClip_eq tmin tmax _ c hc0 hc hr']
  rw [List.map_map]
  refine congrArg Except.ok (List.map_congr_left ?_)
  intro v hv
  obtain ⟨h1, h2⟩ := hr v hv
  by_cases hcase : v - c < tmin
  · simp only [Function.comp_apply, if_pos hcase, if_pos (show v < tmin + c by omega)]
    rw [if_neg (by omega)]
  · simp only [Function.comp_apply, if_neg hcase, if_neg (show ¬ v < tmin + c by omega)]
    rw [if_neg (by omega)]
    omega

/-- Witness for C7 at the uint8 range, image `[1, 200]`, `c = 4`. -/
theorem C7_round_trip_witness :
    (Extrema.subtractConstantClip 0 255 [1, 200] 4).bind
        (fun w => Extrema.addConstantClip 0 255 w 4) =
      .ok ([1, 200].map fun v => if v < 0 + 4 then 0 + 4 else v) :=
  C7_round_trip 0 255 [1, 200] 4 (by decide) (by decide)
    (by intro v hv; fin_cases hv <;> exact ⟨by decide, by decide⟩)

namespace Extrema

section Reconstruction

variable {α : Type} [LinearOrderedAddCommGroup α]

/-- Greatest value of `x` over the neighborhood of `p` (the pixel itself
included, as the default structuring element contains its center). -/
def nbrMax (adj : ℕ → ℕ → Bool) (x : List α) (p : ℕ) : α :=
  (List.range x.length).foldl
    (fun a q => if adj p q then max a (x.getD q 0) else a) (x.getD p 0)

/-- Least value of `x` over the neighborhood of `p` (the pixel included). -/
def nbrMin (adj : ℕ → ℕ → Bool) (x : List α) (p : ℕ) : α :=
  (List.range x.length).foldl
    (fun a q => if adj p q then min a (x.getD q 0) else a) (x.getD p 0)

/-- One parallel step of reconstruction by dilation: dilate `x` over the
neighborhood and clamp from above by `mask`. -/
def dilateStep (adj : ℕ → ℕ → Bool) (mask x : List α) : List α :=
  (List.range x.length).map fun p => min (mask.getD p 0) (nbrMax adj x p)

/-- One parallel step of reconstruction by erosion: erode `x` over the
neighborhood and clamp from below by `mask`. -/
def erodeStep (adj : ℕ → ℕ → Bool) (mask x : List α) : List α :=
  (List.range x.length).map fun p => max (mask.getD p 0) (nbrMin adj x p)

/-- The reconstruction method tag (the source passes `method='dilation'` or
`method='erosion'` as a string). -/
inductive RecMethod : Type
  | dilation : RecMethod
  | erosion : RecMethod

/-- Modelled from the spec: the greyscale reconstruction primitive
(`greyreconstruct.reconstruction`, imported by `extrema.py` but not among the
sources under verification).  Per the spec it is "the greatest (erosion) or
least (dilation) fixed point of repeated elementwise neighborhood
dilation/erosion of `marker` clamped against `mask`"; starting from `marker`,
the clamped step is iterated `2·n² + 1` times for `n` pixels, which is enough
to reach the fixed point: every iterate's pixel values are drawn from the
finitely many values of `marker` and `mask` (at most `2n`), the iterates move
monotonically pixelwise, and any non-fixed step strictly moves at least one
pixel, so at most `n·(2n-1)` non-fixed steps can occur. -/
def reconstruction (method : RecMethod) (adj : ℕ → ℕ → Bool)
    (marker mask : List α) : List α :=
  match method with
  | .dilation => (dilateStep adj mask)^[2 * marker.length * marker.length + 1] marker
  | .erosion => (erodeStep adj mask)^[2 * marker.length * marker.length + 1] marker

/-- Pointwise order on equal-length pixel lists. -/
def PtwiseLE (x y : List α) : Prop :=
  x.length = y.length ∧ ∀ p, p < x.length → x.getD p 0 ≤ y.getD p 0

theorem PtwiseLE.trans {x y z : List α} (h1 : PtwiseLE x y) (h2 : PtwiseLE y z) :
    PtwiseLE x z :=
  ⟨h1.1.trans h2.1, fun p hp => (h1.2 p hp).trans (h2.2 p (h1.1 ▸ hp))⟩

theorem foldl_max_mono (adj : ℕ → ℕ → Bool) (p : ℕ) (l : List ℕ) (f g : ℕ → α)
    (a b : α) (hab : a ≤ b) (hfg : ∀ q ∈ l, f q ≤ g q) :
    l.foldl (fun a' q => if adj p q then max a' (f q) else a') a ≤
      l.foldl (fun a' q => if adj p q then max a' (g q) else a') b := by
  induction l generalizing a b with
  | nil => exact hab
  | cons q t ih =>
    simp only [List.foldl_cons]
    refine ih _ _ ?_ (fun q' hq' => hfg q' (List.mem_cons_of_mem q hq'))
    by_cases h : adj p q
    · rw [if_pos h, if_pos h]
      exact max_le_max hab (hfg q (List.mem_cons_self q t))
    · rw [if_neg h, if_neg h]
      exact hab

theorem foldl_max_congr (adj : ℕ → ℕ → Bool) (p : ℕ) (l : List ℕ) (f g : ℕ → α)
    (a : α) (hfg : ∀ q ∈ l, f q = g q) :
    l.foldl (fun a' q => if adj p q then max a' (f q) else a') a =
      l.foldl (fun a' q => if adj p q then max a' (g q) else a') a := by
  induction l generalizing a with
  | nil => rfl
  | cons q t ih =>
    simp only [List.foldl_cons]
    rw [hfg q (List.mem_cons_self q t)]
    exact ih _ (fun q' hq' => hfg q' (List.mem_cons_of_mem q hq'))

theorem foldl_max_add (adj : ℕ → ℕ → Bool) (p : ℕ) (l : List ℕ) (f : ℕ → α)
    (a c : α) :
    l.foldl (fun a' q => if adj p q then max a' (f q + c) else a') (a + c) =
      l.foldl (fun a' q => if adj p q then max a' (f q) else a') a + c := by
  induction l generalizing a with
  | nil => rfl
  | cons q t ih =>
    simp only [List.foldl_cons]
    by_cases h : adj p q
    · rw [if_pos h, if_pos h, max_add_add_right]
      exact ih _
    · rw [if_neg h, if_neg h]
      exact ih _

theorem foldl_min_neg (adj : ℕ → ℕ → Bool) (p : ℕ) (l : List ℕ) (f : ℕ → α)
    (a : α) :
    l.foldl (fun a' q => if adj p q then min a' (-(f q)) else a') (-a) =
      -(l.foldl (fun a' q => if adj p q then max a' (f q) else a') a) := by
  induction l generalizing a with
  | nil => rfl
  | cons q t ih =>
    simp only [List.foldl_cons]
    by_cases h : adj p q
    · rw [if_pos h, if_pos h, min_neg_neg]
      exact ih _
    · rw [if_neg h, if_neg h]
      exact ih _

theorem nbrMax_mono (adj : ℕ → ℕ → Bool) (x y : List α)
    (hxy : PtwiseLE x y) (p : ℕ) :
    nbrMax adj x p ≤ nbrMax adj y p := by
  obtain ⟨hlen, hle⟩ := hxy
  unfold nbrMax
  rw [← hlen]
  by_cases hp : p < x.length
  · exact foldl_max_mono adj p _ _ _ _ _ (hle p hp)
      (fun q hq => hle q (List.mem_range.mp hq))
  · rw [List.getD_eq_default _ _ (by omega), List.getD_eq_default _ _ (by omega)]
    exact foldl_max_mono adj p _ _ _ _ _ le_rfl
      (fun q hq => hle q (List.mem_range.mp hq))

theorem nbrMax_map_add (adj : ℕ → ℕ → Bool) (x : List α) (c : α) (p : ℕ)
    (hp : p < x.length) :
    nbrMax adj (x.map (· + c)) p = nbrMax adj x p + c := by
  unfold nbrMax
  rw [List.length_map]
  have hgd : ∀ q, q < x.length → (x.map (· + c)).getD q 0 = x.getD q 0 + c := by
    intro q hq
    rw [List.getD_eq_getElem _ _ (by simpa using hq), List.getElem_map,
      List.getD_eq_getElem _ _ hq]
  rw [foldl_max_congr adj p _ _ (fun q => x.getD q 0 + c) _
    (fun q hq => hgd q (List.mem_range.mp hq)), hgd p hp]
  exact foldl_max_add adj p _ _ _ _

theorem foldl_min_congr (adj : ℕ → ℕ → Bool) (p : ℕ) (l : List ℕ) (f g : ℕ → α)
    (a : α) (hfg : ∀ q ∈ l, f q = g q) :
    l.foldl (fun a' q => if adj p q then min a' (f q) else a') a =
      l.foldl (fun a' q => if adj p q then min a' (g q) else a') a := by
  induction l generalizing a with
  | nil => rfl
  | cons q t ih =>
    simp only [List.foldl_cons]
    rw [hfg q (List.mem_cons_self q t)]
    exact ih _ (fun q' hq' => hfg q' (List.mem_cons_of_mem q hq'))

theorem getD_map_neg (x : List α) (q : ℕ) :
    (x.map fun v => -v).getD q 0 = -(x.getD q 0) := by
  by_cases hq : q < x.length
  · rw [List.getD_eq_getElem _ _ (by simpa using hq), List.getElem_map,
      List.getD_eq_getElem _ _ hq]
  · rw [List.getD_eq_default _ _ (by simpa using not_lt.mp hq),
      List.getD_eq_default _ _ (not_lt.mp hq), neg_zero]

theorem nbrMin_map_neg (adj : ℕ → ℕ → Bool) (x : List α) (p : ℕ) :
    nbrMin adj (x.map fun v => -v) p = -(nbrMax adj x p) := by
  unfold nbrMin nbrMax
  rw [List.length_map,
    foldl_min_congr adj p _ _ (fun q => -(x.getD q 0)) _
      (fun q _ => getD_map_neg x q),
    getD_map_neg x p]
  exact foldl_min_neg adj p _ _ _

end Reconstruction

end Extrema

namespace Extrema

section ReconstructionLemmas

variable {α : Type} [LinearOrderedAddCommGroup α]

theorem PtwiseLE.refl (x : List α) : PtwiseLE x x :=
  ⟨rfl, fun _ _ => le_rfl⟩

theorem length_dilateStep (adj : ℕ → ℕ → Bool) (mask x : List α) :
    (dilateStep adj mask x).length = x.length := by
  simp [dilateStep]

theorem length_erodeStep (adj : ℕ → ℕ → Bool) (mask x : List α) :
    (erodeStep adj mask x).length = x.length := by
  simp [erodeStep]

theorem getD_dilateStep (adj : ℕ → ℕ → Bool) (mask x : List α) (p : ℕ)
    (hp : p < x.length) :
    (dilateStep adj mask x).getD p 0 = min (mask.getD p 0) (nbrMax adj x p) := by
  rw [dilateStep, List.getD_eq_getElem _ _ (by simpa using hp), List.getElem_map,
    List.getElem_range]

theorem getD_erodeStep (adj : ℕ → ℕ → Bool) (mask x : List α) (p : ℕ)
    (hp : p < x.length) :
    (erodeStep adj mask x).getD p 0 = max (mask.getD p 0) (nbrMin adj x p) := by
  rw [erodeStep, List.getD_eq_getElem _ _ (by simpa using hp), List.getElem_map,
    List.getElem_range]

theorem dilateStep_mono (adj : ℕ → ℕ → Bool) (mask x y : List α)
    (hxy : PtwiseLE x y) :
    PtwiseLE (dilateStep adj mask x) (dilateStep adj mask y) := by
  refine ⟨by rw [length_dilateStep, length_dilateStep, hxy.1], ?_⟩
  intro p hp
  rw [length_dilateStep] at hp
  rw [getD_dilateStep adj mask x p hp, getD_dilateStep adj mask y p (hxy.1 ▸ hp)]
  exact min_le_min le_rfl (nbrMax_mono adj x y hxy p)

theorem getD_map_add (x : List α) (c : α) (p : ℕ) (hp : p < x.length) :
    (x.map fun v => v + c).getD p 0 = x.getD p 0 + c := by
  rw [List.getD_eq_getElem _ _ (by simpa using hp), List.getElem_map,
    List.getD_eq_getElem _ _ hp]

theorem dilateStep_add_le (adj : ℕ → ℕ → Bool) (mask x : List α) (c : α)
    (hc : 0 ≤ c) :
    PtwiseLE (dilateStep adj mask (x.map fun v => v + c))
      ((dilateStep adj mask x).map fun v => v + c) := by
  refine ⟨by simp [length_dilateStep], ?_⟩
  intro p hp
  rw [length_dilateStep, List.length_map] at hp
  rw [getD_dilateStep adj mask _ p (by simpa using hp),
    getD_map_add _ c p (by rw [length_dilateStep]; exact hp),
    getD_dilateStep adj mask x p hp]
  have hn : nbrMax adj (x.map fun v => v + c) p = nbrMax adj x p + c := by
    have := nbrMax_map_add adj x c p hp
    simpa using this
  rw [hn]
  calc min (mask.getD p 0) (nbrMax adj x p + c)
      ≤ min (mask.getD p 0 + c) (nbrMax adj x p + c) :=
        min_le_min (le_add_of_nonneg_right hc) le_rfl
    _ = min (mask.getD p 0) (nbrMax adj x p) + c := min_add_add_right _ _ _

theorem erodeStep_neg (adj : ℕ → ℕ → Bool) (mask x : List α) :
    erodeStep adj (mask.map fun v => -v) (x.map fun v => -v) =
      (dilateStep adj mask x).map fun v => -v := by
  apply List.ext_getElem
  · simp [length_erodeStep, length_dilateStep]
  · intro p h1 h2
    rw [length_erodeStep, List.length_map] at h1
    rw [← List.getD_eq_getElem _ (0 : α) (by rw [length_erodeStep]; simpa using h1),
      ← List.getD_eq_getElem _ (0 : α) (by simpa [length_dilateStep] using h1),
      getD_erodeStep adj _ _ p (by simpa using h1), getD_map_neg, nbrMin_map_neg,
      max_neg_neg, getD_map_neg, getD_dilateStep adj mask x p h1]

theorem length_dilIter (adj : ℕ → ℕ → Bool) (mask : List α) (n : ℕ) (x : List α) :
    ((dilateStep adj mask)^[n] x).length = x.length := by
  induction n with
  | zero => rfl
  | succ n ih => rw [Function.iterate_succ_apply', length_dilateStep, ih]

theorem length_eroIter (adj : ℕ → ℕ → Bool) (mask : List α) (n : ℕ) (x : List α) :
    ((erodeStep adj mask)^[n] x).length = x.length := by
  induction n with
  | zero => rfl
  | succ n ih => rw [Function.iterate_succ_apply', length_erodeStep, ih]

theorem dilIter_mono (adj : ℕ → ℕ → Bool) (mask : List α) (n : ℕ) (x y : List α)
    (hxy : PtwiseLE x y) :
    PtwiseLE ((dilateStep adj mask)^[n] x) ((dilateStep adj mask)^[n] y) := by
  induction n with
  | zero => exact hxy
  | succ n ih =>
    rw [Function.iterate_succ_apply', Function.iterate_succ_apply']
    exact dilateStep_mono adj mask _ _ ih

theorem dilIter_add_le (adj : ℕ → ℕ → Bool) (mask : List α) (n : ℕ) (x : List α)
    (c : α) (hc : 0 ≤ c) :
    PtwiseLE ((dilateStep adj mask)^[n] (x.map fun v => v + c))
      (((dilateStep adj mask)^[n] x).map fun v => v + c) := by
  induction n with
  | zero => exact PtwiseLE.refl _
  | succ n ih =>
    rw [Function.iterate_succ_apply', Function.iterate_succ_apply']
    exact (dilateStep_mono adj mask _ _ ih).trans
      (dilateStep_add_le adj mask _ c hc)

theorem eroIter_neg (adj : ℕ → ℕ → Bool) (mask : List α) (n : ℕ) (x : List α) :
    (erodeStep adj (mask.map fun v => -v))^[n] (x.map fun v => -v) =
      ((dilateStep adj mask)^[n] x).map fun v => -v := by
  induction n with
  | zero => rfl
  | succ n ih =>
    rw [Function.iterate_succ_apply', Function.iterate_succ_apply', ih,
      erodeStep_neg]

theorem length_reconstruction (m : RecMethod) (adj : ℕ → ℕ → Bool)
    (marker mask : List α) :
    (reconstruction m adj marker mask).length = marker.length := by
  cases m with
  | dilation => exact length_dilIter adj mask _ marker
  | erosion => exact length_eroIter adj mask _ marker

/-- Erosion reconstruction of the negated marker under the negated mask is the
negation of dilation reconstruction (order duality). -/
theorem reconstruction_erosion_neg (adj : ℕ → ℕ → Bool) (marker mask : List α) :
    reconstruction .erosion adj (marker.map fun v => -v) (mask.map fun v => -v) =
      (reconstruction .dilation adj marker mask).map fun v => -v := by
  unfold reconstruction
  rw [List.length_map]
  exact eroIter_neg adj mask _ marker

end ReconstructionLemmas

end Extrema

namespace Extrema

/-- `h_maxima(img, h, selem)` from `extrema.py`, integer-dtype branch:
`shifted_img = _subtract_constant_clip(img, h)` and `resolution = 0`; then
`rec_img = reconstruction(shifted_img, img, method='dilation')`,
`residue_img = img - rec_img`, and the result has `1` where
`residue_img >= h - 10*resolution` and `0` elsewhere (the `ValueError` of the
clipped subtraction propagates). -/
def hMaximaInt (tmin tmax : ℤ) (adj : ℕ → ℕ → Bool) (img : List ℤ) (h : ℤ) :
    Except String (List ℕ) :=
  (subtractConstantClip tmin tmax img h).map fun shifted =>
    let resolution : ℤ := 0
    let recImg := reconstruction .dilation adj shifted img
    let residueImg := List.zipWith (fun a b => a - b) img recImg
    residueImg.map fun r => if h - 10 * resolution ≤ r then 1 else 0

/-- `h_maxima(img, h, selem)` from `extrema.py`, floating-dtype branch:
`shifted_img = img - h` (plain elementwise subtraction) and
`resolution = np.finfo(img.dtype).resolution` (a parameter `res` of the model);
then reconstruction by dilation, residue, and the same threshold. -/
def hMaximaFloat (res : ℚ) (adj : ℕ → ℕ → Bool) (img : List ℚ) (h : ℚ) :
    List ℕ :=
  let shifted := img.map fun v => v - h
  let recImg := reconstruction .dilation adj shifted img
  let residueImg := List.zipWith (fun a b => a - b) img recImg
  residueImg.map fun r => if h - 10 * res ≤ r then 1 else 0

/-- `h_minima(img, h, selem)` from `extrema.py`, integer-dtype branch:
`shifted_img = _add_constant_clip(img, h)`, reconstruction by erosion,
`residue_img = rec_img - img`, same threshold. -/
def hMinimaInt (tmin tmax : ℤ) (adj : ℕ → ℕ → Bool) (img : List ℤ) (h : ℤ) :
    Except String (List ℕ) :=
  (addConstantClip tmin tmax img h).map fun shifted =>
    let resolution : ℤ := 0
    let recImg := reconstruction .erosion adj shifted img
    let residueImg := List.zipWith (fun a b => a - b) recImg img
    residueImg.map fun r => if h - 10 * resolution ≤ r then 1 else 0

/-- `h_minima(img, h, selem)` from `extrema.py`, floating-dtype branch. -/
def hMinimaFloat (res : ℚ) (adj : ℕ → ℕ → Bool) (img : List ℚ) (h : ℚ) :
    List ℕ :=
  let shifted := img.map fun v => v + h
  let recImg := reconstruction .erosion adj shifted img
  let residueImg := List.zipWith (fun a b => a - b) recImg img
  residueImg.map fun r => if h - 10 * res ≤ r then 1 else 0

/-- `gaps u` lists the differences between consecutive elements of `u`
(`u[1:] - u[:-1]` in the source). -/
def gaps : List ℚ → List ℚ
  | a :: b :: t => (b - a) :: gaps (b :: t)
  | _ => []

/-- The ascending sorted list of distinct sample values of the image
(`np.unique(img.flatten())`; the subsequent `img_vec.sort()` of the source is a
no-op since `np.unique` already returns a sorted array). -/
def sortedUnique (img : List ℚ) : List ℚ :=
  List.insertionSort (fun a b => a ≤ b) img.dedup

/-- `find_min_diff(img)` from `extrema.py`: the minimum of the consecutive
differences of the sorted distinct grey values; `np.min` of an empty array
raises `ValueError`. -/
def findMinDiff (img : List ℚ) : Except String ℚ :=
  match gaps (sortedUnique img) with
  | [] => .error "zero-size array to reduction operation minimum which has no identity"
  | d :: ds => .ok (ds.foldl min d)

/-- `local_maxima(img, selem)` from `extrema.py`, integer-dtype branch:
`h_maxima` with `h = 1`. -/
def localMaximaInt (tmin tmax : ℤ) (adj : ℕ → ℕ → Bool) (img : List ℤ) :
    Except String (List ℕ) :=
  hMaximaInt tmin tmax adj img 1

/-- `local_maxima(img, selem)` from `extrema.py`, floating-dtype branch:
`h = find_min_diff(img)`, then `h_maxima`. -/
def localMaximaFloat (res : ℚ) (adj : ℕ → ℕ → Bool) (img : List ℚ) :
    Except String (List ℕ) :=
  (findMinDiff img).map fun h => hMaximaFloat res adj img h

/-- `local_minima(img, selem)` from `extrema.py`, integer-dtype branch. -/
def localMinimaInt (tmin tmax : ℤ) (adj : ℕ → ℕ → Bool) (img : List ℤ) :
    Except String (List ℕ) :=
  hMinimaInt tmin tmax adj img 1

/-- `local_minima(img, selem)` from `extrema.py`, floating-dtype branch. -/
def localMinimaFloat (res : ℚ) (adj : ℕ → ℕ → Bool) (img : List ℚ) :
    Except String (List ℕ) :=
  (findMinDiff img).map fun h => hMinimaFloat res adj img h

end Extrema

namespace Extrema

section FixpointLemmas

variable {α : Type} [LinearOrderedAddCommGroup α]

theorem le_foldl_max (adj : ℕ → ℕ → Bool) (p : ℕ) (l : List ℕ) (f : ℕ → α)
    (a : α) :
    a ≤ l.foldl (fun a' q => if adj p q then max a' (f q) else a') a := by
  induction l generalizing a with
  | nil => exact le_rfl
  | cons q t ih =>
    simp only [List.foldl_cons]
    refine le_trans ?_ (ih _)
    by_cases h : adj p q
    · rw [if_pos h]
      exact le_max_left _ _
    · rw [if_neg h]

theorem self_le_nbrMax (adj : ℕ → ℕ → Bool) (x : List α) (p : ℕ) :
    x.getD p 0 ≤ nbrMax adj x p :=
  le_foldl_max adj p _ _ _

/-- An image is a fixed point of its own dilation step: reconstruction of an
image under itself leaves it unchanged. -/
theorem dilateStep_self (adj : ℕ → ℕ → Bool) (x : List α) :
    dilateStep adj x x = x := by
  apply List.ext_getElem
  · exact length_dilateStep adj x x
  · intro p h1 h2
    rw [← List.getD_eq_getElem _ (0 : α) h1, ← List.getD_eq_getElem _ (0 : α) h2,
      getD_dilateStep adj x x p h2]
    exact min_eq_left (self_le_nbrMax adj x p)

theorem reconstruction_dilation_self (adj : ℕ → ℕ → Bool) (x : List α) :
    reconstruction .dilation adj x x = x :=
  Function.iterate_fixed (dilateStep_self adj x) _

end FixpointLemmas

theorem subtractConstantClip_zero (tmin tmax : ℤ) (img : List ℤ)
    (hmm : tmin ≤ tmax) (hr : InRange tmin tmax img) :
    subtractConstantClip tmin tmax img 0 = .ok img := by
  rw [subtractConstantClip_eq tmin tmax img 0 le_rfl (by omega) hr]
  refine congrArg Except.ok ?_
  have : ∀ v ∈ img, (if v - 0 < tmin then tmin else v - 0) = id v := by
    intro v hv
    obtain ⟨h1, h2⟩ := hr v hv
    rw [if_neg (by omega)]
    simp
  rw [List.map_congr_left this, List.map_id]

end Extrema

/-- **C10**: for every integer image within the dtype range and every
neighborhood, `h_maxima(image, 0)` returns the all-ones mask: the clipped
shift by `0` leaves the marker equal to the mask, reconstruction of the image
under itself is the image, the residue is `0` everywhere, and the threshold
`residue >= 0 - 10*0` marks every pixel. -/
theorem C10_h_maxima_zero (tmin tmax : ℤ) (adj : ℕ → ℕ → Bool) (img : List ℤ)
    (hmm : tmin ≤ tmax) (hr : Extrema.InRange tmin tmax img) :
    Extrema.hMaximaInt tmin tmax adj img 0 = .ok (List.replicate img.length 1) := by
  unfold Extrema.hMaximaInt
  rw [Extrema.subtractConstantClip_zero tmin tmax img hmm hr]
  show Except.ok ((List.zipWith (fun a b : ℤ => a - b) img
      (Extrema.reconstruction .dilation adj img img)).map
        fun r => if (0 : ℤ) - 10 * 0 ≤ r then (1 : ℕ) else 0) = _
  rw [Extrema.reconstruction_dilation_self adj img, List.zipWith_same, List.map_map]
  have hone : ∀ v ∈ img, ((fun r => if (0 : ℤ) - 10 * 0 ≤ r then (1 : ℕ) else 0) ∘
      fun a => a - a) v = (fun _ => (1 : ℕ)) v := by
    intro v _
    simp
  rw [List.map_congr_left hone, List.map_const']

/-- Witness for C10 on the uint8 image `[3, 7, 7]`. -/
theorem C10_h_maxima_zero_witness :
    Extrema.hMaximaInt 0 255 (fun _ _ => true) [3, 7, 7] 0 =
      .ok (List.replicate (List.length [(3 : ℤ), 7, 7]) 1) :=
  C10_h_maxima_zero 0 255 (fun _ _ => true) [3, 7, 7] (by decide)
    (by intro v hv; fin_cases hv <;> exact ⟨by decide, by decide⟩)

namespace Extrema

theorem length_subtractConstantClip (tmin tmax : ℤ) (img : List ℤ) (c : ℤ)
    (shifted : List ℤ) (h : subtractConstantClip tmin tmax img c = .ok shifted) :
    shifted.length = img.length := by
  unfold subtractConstantClip at h
  by_cases hcase : tmax - tmin < c
  · rw [if_pos hcase] at h
    cases h
  · rw [if_neg hcase] at h
    cases h
    simp

theorem length_addConstantClip (tmin tmax : ℤ) (img : List ℤ) (c : ℤ)
    (shifted : List ℤ) (h : addConstantClip tmin tmax img c = .ok shifted) :
    shifted.length = img.length := by
  unfold addConstantClip at h
  by_cases hcase : tmax - tmin < c
  · rw [if_pos hcase] at h
    cases h
  · rw [if_neg hcase] at h
    cases h
    simp

/-- The binary mask produced from a residue image: length and value range. -/
theorem mask_spec {β : Type} [LinearOrder β] (residueImg : List β) (t : β) :
    (residueImg.map fun r => if t ≤ r then (1 : ℕ) else 0).length = residueImg.length ∧
      ∀ v ∈ residueImg.map fun r => if t ≤ r then (1 : ℕ) else 0, v = 0 ∨ v = 1 := by
  refine ⟨by simp, ?_⟩
  intro v hv
  rw [List.mem_map] at hv
  obtain ⟨r, _, rfl⟩ := hv
  by_cases hc : t ≤ r
  · rw [if_pos hc]
    exact Or.inr rfl
  · rw [if_neg hc]
    exact Or.inl rfl

theorem hMaximaInt_ok (tmin tmax : ℤ) (adj : ℕ → ℕ → Bool) (img : List ℤ)
    (h : ℤ) (m : List ℕ) (hok : hMaximaInt tmin tmax adj img h = .ok m) :
    m.length = img.length ∧ ∀ v ∈ m, v = 0 ∨ v = 1 := by
  unfold hMaximaInt at hok
  cases hsub : subtractConstantClip tmin tmax img h with
  | error e => rw [hsub] at hok; cases hok
  | ok shifted =>
    rw [hsub] at hok
    cases hok
    obtain ⟨hlen, hval⟩ := mask_spec
      (List.zipWith (fun a b => a - b) img (reconstruction .dilation adj shifted img))
      (h - 10 * 0)
    refine ⟨?_, hval⟩
    rw [hlen, List.length_zipWith, length_reconstruction,
      length_subtractConstantClip tmin tmax img h shifted hsub, Nat.min_self]

theorem hMinimaInt_ok (tmin tmax : ℤ) (adj : ℕ → ℕ → Bool) (img : List ℤ)
    (h : ℤ) (m : List ℕ) (hok : hMinimaInt tmin tmax adj img h = .ok m) :
    m.length = img.length ∧ ∀ v ∈ m, v = 0 ∨ v = 1 := by
  unfold hMinimaInt at hok
  cases hadd : addConstantClip tmin tmax img h with
  | error e => rw [hadd] at hok; cases hok
  | ok shifted =>
    rw [hadd] at hok
    cases hok
    obtain ⟨hlen, hval⟩ := mask_spec
      (List.zipWith (fun a b => a - b) (reconstruction .erosion adj shifted img) img)
      (h - 10 * 0)
    refine ⟨?_, hval⟩
    rw [hlen, List.length_zipWith, length_reconstruction,
      length_addConstantClip tmin tmax img h shifted hadd, Nat.min_self]

theorem hMaximaFloat_spec (res : ℚ) (adj : ℕ → ℕ → Bool) (img : List ℚ) (h : ℚ) :
    (hMaximaFloat res adj img h).length = img.length ∧
      ∀ v ∈ hMaximaFloat res adj img h, v = 0 ∨ v = 1 := by
  unfold hMaximaFloat
  obtain ⟨hlen, hval⟩ := mask_spec
    (List.zipWith (fun a b => a - b) img
      (reconstruction .dilation adj (img.map fun v => v - h) img))
    (h - 10 * res)
  refine ⟨?_, hval⟩
  rw [hlen, List.length_zipWith, length_reconstruction, List.length_map, Nat.min_self]

theorem hMinimaFloat_spec (res : ℚ) (adj : ℕ → ℕ → Bool) (img : List ℚ) (h : ℚ) :
    (hMinimaFloat res adj img h).length = img.length ∧
      ∀ v ∈ hMinimaFloat res adj img h, v = 0 ∨ v = 1 := by
  unfold hMinimaFloat
  obtain ⟨hlen, hval⟩ := mask_spec
    (List.zipWith (fun a b => a - b)
      (reconstruction .erosion adj (img.map fun v => v + h) img) img)
    (h - 10 * res)
  refine ⟨?_, hval⟩
  rw [hlen, List.length_zipWith, length_reconstruction, List.length_map, Nat.min_self]

end Extrema

/-- **C8**: every mask returned by any of the four public operations (in either
dtype branch) has the same number of pixels as the input image and only values
`0` or `1` (the source builds it as a thresholded `np.zeros(img.shape)` cast to
`np.uint8`, so the element type is fixed 8-bit unsigned — in this model, a
natural number restricted to `{0, 1}`). -/
theorem C8_output_invariant :
    (∀ tmin tmax adj (img : List ℤ) h m,
        Extrema.hMaximaInt tmin tmax adj img h = .ok m →
        m.length = img.length ∧ ∀ v ∈ m, v = 0 ∨ v = 1) ∧
    (∀ tmin tmax adj (img : List ℤ) h m,
        Extrema.hMinimaInt tmin tmax adj img h = .ok m →
        m.length = img.length ∧ ∀ v ∈ m, v = 0 ∨ v = 1) ∧
    (∀ tmin tmax adj (img : List ℤ) m,
        Extrema.localMaximaInt tmin tmax adj img = .ok m →
        m.length = img.length ∧ ∀ v ∈ m, v = 0 ∨ v = 1) ∧
    (∀ tmin tmax adj (img : List ℤ) m,
        Extrema.localMinimaInt tmin tmax adj img = .ok m →
        m.length = img.length ∧ ∀ v ∈ m, v = 0 ∨ v = 1) ∧
    (∀ res adj (img : List ℚ) h,
        (Extrema.hMaximaFloat res adj img h).length = img.length ∧
        ∀ v ∈ Extrema.hMaximaFloat res adj img h, v = 0 ∨ v = 1) ∧
    (∀ res adj (img : List ℚ) h,
        (Extrema.hMinimaFloat res adj img h).length = img.length ∧
        ∀ v ∈ Extrema.hMinimaFloat res adj img h, v = 0 ∨ v = 1) ∧
    (∀ res adj (img : List ℚ) m,
        Extrema.localMaximaFloat res adj img = .ok m →
        m.length = img.length ∧ ∀ v ∈ m, v = 0 ∨ v = 1) ∧
    (∀ res adj (img : List ℚ) m,
        Extrema.localMinimaFloat res adj img = .ok m →
        m.length = img.length ∧ ∀ v ∈ m, v = 0 ∨ v = 1) := by
  refine ⟨Extrema.hMaximaInt_ok, Extrema.hMinimaInt_ok,
    fun tmin tmax adj img m hok => Extrema.hMaximaInt_ok tmin tmax adj img 1 m hok,
    fun tmin tmax adj img m hok => Extrema.hMinimaInt_ok tmin tmax adj img 1 m hok,
    Extrema.hMaximaFloat_spec, Extrema.hMinimaFloat_spec, ?_, ?_⟩
  · intro res adj img m hok
    unfold Extrema.localMaximaFloat at hok
    cases hmd : Extrema.findMinDiff img with
    | error e => rw [hmd] at hok; cases hok
    | ok h =>
      rw [hmd] at hok
      cases hok
      exact Extrema.hMaximaFloat_spec res adj img h
  · intro res adj img m hok
    unfold Extrema.localMinimaFloat at hok
    cases hmd : Extrema.findMinDiff img with
    | error e => rw [hmd] at hok; cases hok
    | ok h =>
      rw [hmd] at hok
      cases hok
      exact Extrema.hMinimaFloat_spec res adj img h

/-- Witness for C8: concrete instances of all eight conjuncts on two-pixel
images. -/
theorem C8_output_invariant_witness :
    (([0, 1] : List ℕ).length = ([0, 3] : List ℤ).length ∧
      ∀ v ∈ ([0, 1] : List ℕ), v = 0 ∨ v = 1) ∧
    (([1, 0] : List ℕ).length = ([0, 3] : List ℤ).length ∧
      ∀ v ∈ ([1, 0] : List ℕ), v = 0 ∨ v = 1) ∧
    (([0, 1] : List ℕ).length = ([0, 3] : List ℤ).length ∧
      ∀ v ∈ ([0, 1] : List ℕ), v = 0 ∨ v = 1) ∧
    (([1, 0] : List ℕ).length = ([0, 3] : List ℤ).length ∧
      ∀ v ∈ ([1, 0] : List ℕ), v = 0 ∨ v = 1) ∧
    ((Extrema.hMaximaFloat 0 (fun _ _ => true) [0, 3] 3).length =
        ([0, 3] : List ℚ).length ∧
      ∀ v ∈ Extrema.hMaximaFloat 0 (fun _ _ => true) [0, 3] 3, v = 0 ∨ v = 1) ∧
    ((Extrema.hMinimaFloat 0 (fun _ _ => true) [0, 3] 3).length =
        ([0, 3] : List ℚ).length ∧
      ∀ v ∈ Extrema.hMinimaFloat 0 (fun _ _ => true) [0, 3] 3, v = 0 ∨ v = 1) ∧
    ((Extrema.hMaximaFloat 0 (fun _ _ => true) [0, 3] 3).length =
        ([0, 3] : List ℚ).length ∧
      ∀ v ∈ Extrema.hMaximaFloat 0 (fun _ _ => true) [0, 3] 3, v = 0 ∨ v = 1) ∧
    ((Extrema.hMinimaFloat 0 (fun _ _ => true) [0, 3] 3).length =
        ([0, 3] : List ℚ).length ∧
      ∀ v ∈ Extrema.hMinimaFloat 0 (fun _ _ => true) [0, 3] 3, v = 0 ∨ v = 1) :=
  ⟨C8_output_invariant.1 0 255 (fun _ _ => true) [0, 3] 1 [0, 1] rfl,
   C8_output_invariant.2.1 0 255 (fun _ _ => true) [0, 3] 1 [1, 0] rfl,
   C8_output_invariant.2.2.1 0 255 (fun _ _ => true) [0, 3] [0, 1] rfl,
   C8_output_invariant.2.2.2.1 0 255 (fun _ _ => true) [0, 3] [1, 0] rfl,
   C8_output_invariant.2.2.2.2.1 0 (fun _ _ => true) [0, 3] 3,
   C8_output_invariant.2.2.2.2.2.1 0 (fun _ _ => true) [0, 3] 3,
   C8_output_invariant.2.2.2.2.2.2.1 0 (fun _ _ => true) [0, 3]
     (Extrema.hMaximaFloat 0 (fun _ _ => true) [0, 3] 3)
     (by
       have h1 : Extrema.findMinDiff [0, 3] = .ok ((3 : ℚ) - 0) := rfl
       have hmd : Extrema.findMinDiff [0, 3] = .ok 3 := by
         rw [h1, sub_zero]
       unfold Extrema.localMaximaFloat
       rw [hmd]
       rfl),
   C8_output_invariant.2.2.2.2.2.2.2 0 (fun _ _ => true) [0, 3]
     (Extrema.hMinimaFloat 0 (fun _ _ => true) [0, 3] 3)
     (by
       have h1 : Extrema.findMinDiff [0, 3] = .ok ((3 : ℚ) - 0) := rfl
       have hmd : Extrema.findMinDiff [0, 3] = .ok 3 := by
         rw [h1, sub_zero]
       unfold Extrema.localMinimaFloat
       rw [hmd]
       rfl)⟩

/-- **C4**: `local_maxima` on an integer image is exactly `h_maxima` with
`h = 1` (for every dtype range and neighborhood), and on a floating image the
`h` passed to `h_maxima` is exactly the value returned by `find_min_diff`. -/
theorem C4_local_maxima_refinement :
    (∀ tmin tmax adj (img : List ℤ),
        Extrema.localMaximaInt tmin tmax adj img =
          Extrema.hMaximaInt tmin tmax adj img 1) ∧
    (∀ res adj (img : List ℚ) h, Extrema.findMinDiff img = .ok h →
        Extrema.localMaximaFloat res adj img =
          .ok (Extrema.hMaximaFloat res adj img h)) := by
  refine ⟨fun _ _ _ _ => rfl, ?_⟩
  intro res adj img h hmd
  unfold Extrema.localMaximaFloat
  rw [hmd]
  rfl

/-- Witness for C4: the integer case on the uint8 image `[0, 3]`, and the
floating case on `[0, 3]` whose minimal grey-level difference is `3 - 0`. -/
theorem C4_local_maxima_refinement_witness :
    Extrema.localMaximaInt 0 255 (fun _ _ => true) [0, 3] =
      Extrema.hMaximaInt 0 255 (fun _ _ => true) [0, 3] 1 ∧
    Extrema.localMaximaFloat 0 (fun _ _ => true) [0, 3] =
      .ok (Extrema.hMaximaFloat 0 (fun _ _ => true) [0, 3] ((3 : ℚ) - 0)) :=
  ⟨C4_local_maxima_refinement.1 0 255 (fun _ _ => true) [0, 3],
   C4_local_maxima_refinement.2 0 (fun _ _ => true) [0, 3] ((3 : ℚ) - 0) rfl⟩

namespace Extrema

/-- Modelled from the spec: the §4.1 `subtract_clipped` contract — elements
whose unclipped difference `image - constant` would go below the type minimum
are set exactly to the type minimum, all others to `image - constant`; a domain
error is raised when the constant exceeds `type_max - type_min`.  (Unlike the
source, no intermediate wraparound arithmetic appears.) -/
def subtractClippedSpec (tmin tmax : ℤ) (img : List ℤ) (c : ℤ) :
    Except String (List ℤ) :=
  if tmax - tmin < c then
    .error "The subtracted constant is not compatiblewith the image data type."
  else
    .ok (img.map fun v => if v - c < tmin then tmin else v - c)

/-- Modelled from the spec: the §4.3 `h_maxima` pipeline for integer element
types — shifted image by saturation-safe subtraction, `resolution = 0`,
reconstruction by dilation with marker = shifted and mask = image, residue
`image - reconstructed`, output `1` where `residue >= h - 10*resolution`. -/
def hMaximaIntSpec (tmin tmax : ℤ) (adj : ℕ → ℕ → Bool) (img : List ℤ)
    (h : ℤ) : Except String (List ℕ) :=
  (subtractClippedSpec tmin tmax img h).map fun shifted =>
    let resolution : ℤ := 0
    let recImg := reconstruction .dilation adj shifted img
    let residueImg := List.zipWith (fun a b => a - b) img recImg
    residueImg.map fun r => if h - 10 * resolution ≤ r then 1 else 0

/-- Modelled from the spec: the §4.3 `h_maxima` pipeline for floating element
types — plain (unclipped) elementwise shift `image - h`, `resolution` the
dtype's smallest representable relative precision (parameter `res`),
reconstruction by dilation with marker = shifted and mask = image, residue
`image - reconstructed`, output `1` where `residue >= h - 10*resolution`. -/
def hMaximaFloatSpec (res : ℚ) (adj : ℕ → ℕ → Bool) (img : List ℚ) (h : ℚ) :
    List ℕ :=
  let shifted := img.map fun v => v - h
  let recImg := reconstruction .dilation adj shifted img
  let residueImg := List.zipWith (fun a b => a - b) img recImg
  residueImg.map fun r => if h - 10 * res ≤ r then 1 else 0

theorem subtractConstantClip_eq_spec (tmin tmax : ℤ) (img : List ℤ) (c : ℤ)
    (hc0 : 0 ≤ c) (hr : InRange tmin tmax img) :
    subtractConstantClip tmin tmax img c = subtractClippedSpec tmin tmax img c := by
  by_cases hcase : tmax - tmin < c
  · unfold subtractConstantClip subtractClippedSpec
    rw [if_pos hcase, if_pos hcase]
  · rw [subtractConstantClip_eq tmin tmax img c hc0 (by omega) hr]
    unfold subtractClippedSpec
    rw [if_neg hcase]

end Extrema

/-- **C1**: `h_maxima` follows the specified pipeline.  For integer element
types (image within the dtype range, `h ≥ 0` as documented) it agrees with the
spec pipeline built on the saturation-safe subtraction contract with
`resolution = 0`; for floating element types it agrees with the spec pipeline
built on the plain elementwise shift and the dtype resolution.  In both, the
reconstruction-by-dilation is invoked with marker = shifted image and
mask = image, the residue is `image - reconstructed`, and the output is `1`
exactly where `residue >= h - 10*resolution`, else `0`. -/
theorem C1_h_maxima_pipeline :
    (∀ tmin tmax adj (img : List ℤ) h, 0 ≤ h → Extrema.InRange tmin tmax img →
        Extrema.hMaximaInt tmin tmax adj img h =
          Extrema.hMaximaIntSpec tmin tmax adj img h) ∧
    (∀ res adj (img : List ℚ) h,
        Extrema.hMaximaFloat res adj img h =
          Extrema.hMaximaFloatSpec res adj img h) := by
  refine ⟨?_, fun _ _ _ _ => rfl⟩
  intro tmin tmax adj img h hh hr
  unfold Extrema.hMaximaInt Extrema.hMaximaIntSpec
  rw [Extrema.subtractConstantClip_eq_spec tmin tmax img h hh hr]

/-- Witness for C1: the integer case on the uint8 image `[0, 5]` with
`h = 2`, and the floating case on `[0, 5]` with `h = 2` and resolution `1/1000`. -/
theorem C1_h_maxima_pipeline_witness :
    Extrema.hMaximaInt 0 255 (fun _ _ => true) [0, 5] 2 =
      Extrema.hMaximaIntSpec 0 255 (fun _ _ => true) [0, 5] 2 ∧
    Extrema.hMaximaFloat (1 / 1000) (fun _ _ => true) [0, 5] 2 =
      Extrema.hMaximaFloatSpec (1 / 1000) (fun _ _ => true) [0, 5] 2 :=
  ⟨C1_h_maxima_pipeline.1 0 255 (fun _ _ => true) [0, 5] 2 (by decide)
      (by intro v hv; fin_cases hv <;> exact ⟨by decide, by decide⟩),
   C1_h_maxima_pipeline.2 (1 / 1000) (fun _ _ => true) [0, 5] 2⟩

namespace Extrema

theorem gaps_cons_cons (x y : ℚ) (s : List ℚ) :
    gaps (x :: y :: s) = (y - x) :: gaps (y :: s) := rfl

theorem sortedUnique_sorted (img : List ℚ) :
    (sortedUnique img).Sorted (fun a b => a ≤ b) :=
  List.sorted_insertionSort _ _

theorem sortedUnique_nodup (img : List ℚ) : (sortedUnique img).Nodup :=
  ((List.perm_insertionSort _ _).nodup_iff).mpr (List.nodup_dedup img)

theorem sortedUnique_strict (img : List ℚ) :
    (sortedUnique img).Sorted (fun a b => a < b) :=
  List.Sorted.lt_of_le (sortedUnique_sorted img) (sortedUnique_nodup img)

theorem mem_sortedUnique (img : List ℚ) (v : ℚ) :
    v ∈ sortedUnique img ↔ v ∈ img := by
  unfold sortedUnique
  rw [List.mem_insertionSort, List.mem_dedup]

theorem foldl_min_le_self {β : Type} [LinearOrder β] (l : List β) (d : β) :
    l.foldl min d ≤ d := by
  induction l generalizing d with
  | nil => exact le_rfl
  | cons x t ih =>
    simp only [List.foldl_cons]
    exact le_trans (ih (min d x)) (min_le_left d x)

theorem foldl_min_le_mem {β : Type} [LinearOrder β] (l : List β) (d g : β) :
    g ∈ l → l.foldl min d ≤ g := by
  induction l generalizing d with
  | nil => intro hg; cases hg
  | cons x t ih =>
    intro hg
    simp only [List.foldl_cons]
    rcases List.mem_cons.mp hg with rfl | hg'
    · exact le_trans (foldl_min_le_self t (min d g)) (min_le_right d g)
    · exact ih (min d x) hg'

theorem foldl_min_mem {β : Type} [LinearOrder β] (l : List β) (d : β) :
    l.foldl min d = d ∨ l.foldl min d ∈ l := by
  induction l generalizing d with
  | nil => exact Or.inl rfl
  | cons x t ih =>
    simp only [List.foldl_cons]
    rcases ih (min d x) with h | h
    · rw [h]
      rcases le_total d x with hdx | hxd
      · exact Or.inl (min_eq_left hdx)
      · exact Or.inr (by rw [min_eq_right hxd]; exact List.mem_cons_self x t)
    · exact Or.inr (List.mem_cons_of_mem x h)

theorem gaps_pos (u : List ℚ) :
    u.Sorted (fun a b => a < b) → ∀ g ∈ gaps u, 0 < g := by
  induction u with
  | nil => intro _ g hg; cases hg
  | cons x t ih =>
    intro hs g hg
    cases t with
    | nil => cases hg
    | cons y s =>
      rw [gaps_cons_cons] at hg
      rcases List.mem_cons.mp hg with rfl | hg'
      · have hxy : x < y := List.rel_of_sorted_cons hs y (List.mem_cons_self y s)
        exact sub_pos.mpr hxy
      · exact ih hs.of_cons g hg'

theorem gaps_exists_le (u : List ℚ) :
    u.Sorted (fun a b => a < b) →
      ∀ a ∈ u, ∀ b ∈ u, a < b → ∃ g ∈ gaps u, g ≤ b - a := by
  induction u with
  | nil => intro _ a ha; cases ha
  | cons x t ih =>
    intro hs a ha b hb hab
    cases t with
    | nil =>
      rw [List.mem_singleton] at ha hb
      rw [ha, hb] at hab
      exact absurd hab (lt_irrefl x)
    | cons y s =>
      rcases List.mem_cons.mp ha with rfl | ha'
      · have hb' : b ∈ y :: s := by
          rcases List.mem_cons.mp hb with rfl | h
          · exact absurd hab (lt_irrefl b)
          · exact h
        have hyb : y ≤ b := by
          rcases List.mem_cons.mp hb' with rfl | h
          · exact le_rfl
          · exact le_of_lt (List.rel_of_sorted_cons hs.of_cons b h)
        refine ⟨y - a, ?_, by linarith⟩
        rw [gaps_cons_cons]
        exact List.mem_cons_self _ _
      · have hb' : b ∈ y :: s := by
          rcases List.mem_cons.mp hb with rfl | h
          · exact absurd (lt_trans (List.rel_of_sorted_cons hs a ha') hab)
              (lt_irrefl b)
          · exact h
        obtain ⟨g, hg, hgle⟩ := ih hs.of_cons a ha' b hb' hab
        refine ⟨g, ?_, hgle⟩
        rw [gaps_cons_cons]
        exact List.mem_cons_of_mem _ hg

theorem gaps_mem_sub (u : List ℚ) :
    u.Sorted (fun a b => a < b) →
      ∀ g ∈ gaps u, ∃ a ∈ u, ∃ b ∈ u, a < b ∧ b - a = g := by
  induction u with
  | nil => intro _ g hg; cases hg
  | cons x t ih =>
    intro hs g hg
    cases t with
    | nil => cases hg
    | cons y s =>
      rw [gaps_cons_cons] at hg
      rcases List.mem_cons.mp hg with rfl | hg'
      · exact ⟨x, List.mem_cons_self _ _, y,
          List.mem_cons_of_mem _ (List.mem_cons_self _ _),
          List.rel_of_sorted_cons hs y (List.mem_cons_self y s), rfl⟩
      · obtain ⟨a, ha, b, hb, hab, hba⟩ := ih hs.of_cons g hg'
        exact ⟨a, List.mem_cons_of_mem _ ha, b, List.mem_cons_of_mem _ hb,
          hab, hba⟩

theorem gaps_ne_nil (u : List ℚ) (hu : 2 ≤ u.length) : gaps u ≠ [] := by
  cases u with
  | nil => cases hu
  | cons x t =>
    cases t with
    | nil => simp at hu
    | cons y s =>
      rw [gaps_cons_cons]
      exact List.cons_ne_nil _ _

theorem two_le_length_sortedUnique (img : List ℚ) (a b : ℚ) (ha : a ∈ img)
    (hb : b ∈ img) (hab : a ≠ b) : 2 ≤ (sortedUnique img).length := by
  have ha' : a ∈ sortedUnique img := (mem_sortedUnique img a).mpr ha
  have hb' : b ∈ sortedUnique img := (mem_sortedUnique img b).mpr hb
  cases hu : sortedUnique img with
  | nil => rw [hu] at ha'; cases ha'
  | cons x t =>
    cases t with
    | nil =>
      rw [hu, List.mem_singleton] at ha' hb'
      exact absurd (ha'.trans hb'.symm) hab
    | cons y s => simp

theorem gaps_sortedUnique_nil (img : List ℚ)
    (hall : ∀ a ∈ img, ∀ b ∈ img, a = b) : gaps (sortedUnique img) = [] := by
  cases hu : sortedUnique img with
  | nil => rfl
  | cons x t =>
    cases t with
    | nil => rfl
    | cons y s =>
      have hx : x ∈ sortedUnique img := by rw [hu]; exact List.mem_cons_self _ _
      have hy : y ∈ sortedUnique img := by
        rw [hu]
        exact List.mem_cons_of_mem _ (List.mem_cons_self _ _)
      have hxy : x = y :=
        hall x ((mem_sortedUnique img x).mp hx) y ((mem_sortedUnique img y).mp hy)
      have hnd := sortedUnique_nodup img
      rw [hu] at hnd
      rw [hxy] at hnd
      exact absurd (List.mem_cons_self _ _) (List.Nodup.not_mem hnd)

end Extrema

/-- **C9**: on an image with at least two distinct sample values,
`find_min_diff` returns a positive value `d` that is the smallest positive
pairwise difference of sample values (hence the smallest consecutive
difference of the ascending sorted distinct values): `d` bounds every positive
difference from below and is attained by a pair; on an image with fewer than
two distinct values `find_min_diff` fails. -/
theorem C9_find_min_diff (img : List ℚ) :
    ((∃ a ∈ img, ∃ b ∈ img, a ≠ b) →
      ∃ d, Extrema.findMinDiff img = .ok d ∧ 0 < d ∧
        (∀ a ∈ img, ∀ b ∈ img, a < b → d ≤ b - a) ∧
        (∃ a ∈ img, ∃ b ∈ img, a < b ∧ b - a = d)) ∧
    ((∀ a ∈ img, ∀ b ∈ img, a = b) →
      ∃ e, Extrema.findMinDiff img = .error e) := by
  constructor
  · rintro ⟨a, ha, b, hb, hab⟩
    have hlen := Extrema.two_le_length_sortedUnique img a b ha hb hab
    have hstrict := Extrema.sortedUnique_strict img
    cases hg : Extrema.gaps (Extrema.sortedUnique img) with
    | nil => exact absurd hg (Extrema.gaps_ne_nil _ hlen)
    | cons d0 ds =>
      refine ⟨ds.foldl min d0, ?_, ?_, ?_, ?_⟩
      · unfold Extrema.findMinDiff
        rw [hg]
      · have hmem : ds.foldl min d0 ∈ Extrema.gaps (Extrema.sortedUnique img) := by
          rw [hg]
          rcases Extrema.foldl_min_mem ds d0 with h | h
          · rw [h]; exact List.mem_cons_self _ _
          · exact List.mem_cons_of_mem _ h
        exact Extrema.gaps_pos _ hstrict _ hmem
      · intro x hx y hy hxy
        obtain ⟨g, hgmem, hgle⟩ := Extrema.gaps_exists_le _ hstrict
          x ((Extrema.mem_sortedUnique img x).mpr hx)
          y ((Extrema.mem_sortedUnique img y).mpr hy) hxy
        rw [hg] at hgmem
        refine le_trans ?_ hgle
        rcases List.mem_cons.mp hgmem with rfl | h
        · exact Extrema.foldl_min_le_self ds g
        · exact Extrema.foldl_min_le_mem ds d0 g h
      · have hmem : ds.foldl min d0 ∈ Extrema.gaps (Extrema.sortedUnique img) := by
          rw [hg]
          rcases Extrema.foldl_min_mem ds d0 with h | h
          · rw [h]; exact List.mem_cons_self _ _
          · exact List.mem_cons_of_mem _ h
        obtain ⟨x, hx, y, hy, hxy, hyx⟩ :=
          Extrema.gaps_mem_sub _ hstrict _ hmem
        exact ⟨x, (Extrema.mem_sortedUnique img x).mp hx,
          y, (Extrema.mem_sortedUnique img y).mp hy, hxy, hyx⟩
  · intro hall
    have hg := Extrema.gaps_sortedUnique_nil img hall
    refine ⟨"zero-size array to reduction operation minimum which has no identity", ?_⟩
    unfold Extrema.findMinDiff
    rw [hg]

/-- Witness for C9: the image `[0, 3]` has two distinct values, the constant
image `[5, 5]` has one. -/
theorem C9_find_min_diff_witness :
    (∃ d, Extrema.findMinDiff [0, 3] = .ok d ∧ 0 < d ∧
      (∀ a ∈ ([0, 3] : List ℚ), ∀ b ∈ ([0, 3] : List ℚ), a < b → d ≤ b - a) ∧
      (∃ a ∈ ([0, 3] : List ℚ), ∃ b ∈ ([0, 3] : List ℚ), a < b ∧ b - a = d)) ∧
    (∃ e, Extrema.findMinDiff [5, 5] = .error e) :=
  ⟨(C9_find_min_diff [0, 3]).1 ⟨0, by decide, 3, by decide, by decide⟩,
   (C9_find_min_diff [5, 5]).2 (by intro a ha b hb; fin_cases ha <;> fin_cases hb <;> rfl)⟩

namespace Extrema

section Duality

variable {α : Type} [LinearOrderedAddCommGroup α]

/-- The h-minima mask of the negated image (marker negated as well) equals the
h-maxima mask: residues agree under the erosion/dilation duality. -/
theorem mask_neg_dual (adj : ℕ → ℕ → Bool) (img shifted : List α) (t : α) :
    ((List.zipWith (fun a b => a - b)
        (reconstruction .erosion adj (shifted.map fun v => -v)
          (img.map fun v => -v))
        (img.map fun v => -v)).map fun r => if t ≤ r then (1 : ℕ) else 0) =
      ((List.zipWith (fun a b => a - b) img
        (reconstruction .dilation adj shifted img)).map
          fun r => if t ≤ r then (1 : ℕ) else 0) := by
  rw [reconstruction_erosion_neg adj shifted img]
  have hres : List.zipWith (fun a b => a - b)
      ((reconstruction .dilation adj shifted img).map fun v => -v)
      (img.map fun v => -v) =
      List.zipWith (fun a b => a - b) img
        (reconstruction .dilation adj shifted img) := by
    apply List.ext_getElem
    · simp [List.length_zipWith, Nat.min_comm]
    · intro p h1 h2
      simp only [List.getElem_zipWith, List.getElem_map]
      abel
  rw [hres]

theorem map_add_eq_map_sub_neg (x : List α) (h : α) :
    (x.map fun v => -v).map (fun v => v + h) =
      (x.map fun v => v - h).map fun v => -v := by
  rw [List.map_map, List.map_map]
  refine List.map_congr_left fun v _ => ?_
  show -v + h = -(v - h)
  abel

end Duality

end Extrema

/-- **C5 counterexample**: on the int8 image `[-126, -127]` with `h = 2`
(full adjacency), `h_maxima` marks the first pixel but `h_minima` of the
negated image `[126, 127]` marks nothing: the saturation clamps of the two
shifts act at different distances from the two type extremes
(`tmin = -128` but `-tmax = -127`), so the claimed pixelwise equality fails
for signed integer images. -/
theorem C5_counterexample :
    Extrema.hMaximaInt (-128) 127 (fun _ _ => true) [-126, -127] 2 =
      .ok [1, 0] ∧
    Extrema.hMinimaInt (-128) 127 (fun _ _ => true)
      ([-126, -127].map fun v => -v) 2 = .ok [0, 0] ∧
    Extrema.hMaximaInt (-128) 127 (fun _ _ => true) [-126, -127] 2 ≠
      Extrema.hMinimaInt (-128) 127 (fun _ _ => true)
        ([-126, -127].map fun v => -v) 2 :=
  ⟨rfl, rfl, by decide⟩

/-- **C5 amended**: `h_maxima(image, h) = h_minima(-image, h)` holds pixelwise
for every floating-point image, resolution, height and neighborhood; for
signed (two's-complement, `tmin = -(tmax+1)`) integer images it holds provided
`0 ≤ h ≤ tmax - tmin` and every pixel value `v` satisfies
`tmin + h + 1 ≤ v ≤ tmax`, so that neither shift saturates and `-v` is
representable.  (The counterexample shows it fails when a pixel is within `h`
of the type minimum.) -/
theorem C5_sign_flip_duality :
    (∀ res adj (img : List ℚ) h,
        Extrema.hMaximaFloat res adj img h =
          Extrema.hMinimaFloat res adj (img.map fun v => -v) h) ∧
    (∀ tmin tmax adj (img : List ℤ) h, tmin = -(tmax + 1) → 0 ≤ h →
        h ≤ tmax - tmin → (∀ v ∈ img, tmin + h + 1 ≤ v ∧ v ≤ tmax) →
        Extrema.hMaximaInt tmin tmax adj img h =
          Extrema.hMinimaInt tmin tmax adj (img.map fun v => -v) h) := by
  constructor
  · intro res adj img h
    simp only [Extrema.hMaximaFloat, Extrema.hMinimaFloat]
    rw [Extrema.map_add_eq_map_sub_neg img h,
      Extrema.mask_neg_dual adj img (img.map fun v => v - h) (h - 10 * res)]
  · intro tmin tmax adj img h htc hh0 hhr hall
    have hr : Extrema.InRange tmin tmax img := by
      intro v hv
      obtain ⟨h1, h2⟩ := hall v hv
      exact ⟨by omega, h2⟩
    have hsub : Extrema.subtractConstantClip tmin tmax img h =
        .ok (img.map fun v => v - h) := by
      rw [Extrema.subtractConstantClip_eq tmin tmax img h hh0 hhr hr]
      refine congrArg Except.ok (List.map_congr_left fun v hv => ?_)
      obtain ⟨h1, h2⟩ := hall v hv
      rw [if_neg (by omega)]
    have hadd : Extrema.addConstantClip tmin tmax (img.map fun v => -v) h =
        .ok ((img.map fun v => -v).map fun v => v + h) := by
      have hr' : Extrema.InRange tmin tmax (img.map fun v => -v) := by
        intro w hw
        rw [List.mem_map] at hw
        obtain ⟨v, hv, rfl⟩ := hw
        obtain ⟨h1, h2⟩ := hall v hv
        exact ⟨by omega, by omega⟩
      rw [Extrema.addConstantClip_eq tmin tmax _ h hh0 hhr hr']
      refine congrArg Except.ok (List.map_congr_left fun w hw => ?_)
      rw [List.mem_map] at hw
      obtain ⟨v, hv, rfl⟩ := hw
      obtain ⟨h1, h2⟩ := hall v hv
      rw [if_neg (by omega)]
    simp only [Extrema.hMaximaInt, Extrema.hMinimaInt]
    rw [hsub, hadd]
    show Except.ok ((List.zipWith (fun a b : ℤ => a - b) img
        (Extrema.reconstruction .dilation adj (img.map fun v => v - h)
          img)).map fun r => if h - 10 * 0 ≤ r then (1 : ℕ) else 0) =
      Except.ok ((List.zipWith (fun a b : ℤ => a - b)
        (Extrema.reconstruction .erosion adj
          ((img.map fun v => -v).map fun v => v + h) (img.map fun v => -v))
        (img.map fun v => -v)).map
          fun r => if h - 10 * 0 ≤ r then (1 : ℕ) else 0)
    refine congrArg Except.ok ?_
    rw [Extrema.map_add_eq_map_sub_neg img h,
      Extrema.mask_neg_dual adj img (img.map fun v => v - h) (h - 10 * 0)]

/-- Witness for C5: the floating case on `[0, 5]` with `h = 2` and the
two's-complement int8 case on `[-100, -90]` with `h = 2`. -/
theorem C5_sign_flip_duality_witness :
    Extrema.hMaximaFloat (1 / 1000) (fun _ _ => true) [0, 5] 2 =
      Extrema.hMinimaFloat (1 / 1000) (fun _ _ => true)
        ([0, 5].map fun v => -v) 2 ∧
    Extrema.hMaximaInt (-128) 127 (fun _ _ => true) [-100, -90] 2 =
      Extrema.hMinimaInt (-128) 127 (fun _ _ => true)
        ([-100, -90].map fun v => -v) 2 :=
  ⟨C5_sign_flip_duality.1 (1 / 1000) (fun _ _ => true) [0, 5] 2,
   C5_sign_flip_duality.2 (-128) 127 (fun _ _ => true) [-100, -90] 2
     (by decide) (by decide) (by decide)
     (by intro v hv; fin_cases hv <;> exact ⟨by decide, by decide⟩)⟩

namespace Extrema

section Monotonicity

variable {α : Type} [LinearOrderedAddCommGroup α]

theorem getD_map_fn (f : α → α) (x : List α) (p : ℕ) (hp : p < x.length) :
    (x.map f).getD p 0 = f (x.getD p 0) := by
  rw [List.getD_eq_getElem _ _ (by simpa using hp), List.getElem_map,
    List.getD_eq_getElem _ _ hp]

/-- Core monotonicity: if `marker1` is pointwise at most `marker2 + c` with
`c ≥ 0`, and the thresholds satisfy `t1 + c ≤ t2`, then the thresholded
residue mask at `(marker2, t2)` is pointwise at most the one at
`(marker1, t1)`. -/
theorem mask_le_mask (adj : ℕ → ℕ → Bool) (img marker1 marker2 : List α)
    (c t1 t2 : α) (hc : 0 ≤ c) (ht : t1 + c ≤ t2)
    (hlen : marker1.length = marker2.length)
    (hm : PtwiseLE marker1 (marker2.map fun v => v + c)) :
    ∀ p,
      ((List.zipWith (fun a b => a - b) img
          (reconstruction .dilation adj marker2 img)).map
            fun r => if t2 ≤ r then (1 : ℕ) else 0).getD p 0 ≤
      ((List.zipWith (fun a b => a - b) img
          (reconstruction .dilation adj marker1 img)).map
            fun r => if t1 ≤ r then (1 : ℕ) else 0).getD p 0 := by
  intro p
  have hlen1 : (reconstruction .dilation adj marker1 img).length = marker1.length :=
    length_reconstruction _ _ _ _
  have hlen2 : (reconstruction .dilation adj marker2 img).length = marker2.length :=
    length_reconstruction _ _ _ _
  by_cases hp : p < (List.zipWith (fun a b => a - b) img
      (reconstruction .dilation adj marker2 img)).length
  · have hpimg : p < img.length := by
      rw [List.length_zipWith] at hp
      omega
    have hpr2 : p < (reconstruction .dilation adj marker2 img).length := by
      rw [List.length_zipWith] at hp
      omega
    have hpr1 : p < (reconstruction .dilation adj marker1 img).length := by
      rw [hlen1, hlen, ← hlen2]
      exact hpr2
    have hp1 : p < (List.zipWith (fun a b => a - b) img
        (reconstruction .dilation adj marker1 img)).length := by
      rw [List.length_zipWith]
      omega
    have hiter : PtwiseLE (reconstruction .dilation adj marker1 img)
        ((reconstruction .dilation adj marker2 img).map fun v => v + c) := by
      have e1 : reconstruction .dilation adj marker1 img =
          (dilateStep adj img)^[2 * marker2.length * marker2.length + 1] marker1 := by
        unfold reconstruction
        rw [hlen]
      have hmono := dilIter_mono adj img
        (2 * marker2.length * marker2.length + 1) marker1
        (marker2.map fun v => v + c) hm
      have hlip := dilIter_add_le adj img
        (2 * marker2.length * marker2.length + 1) marker2 c hc
      rw [e1]
      exact hmono.trans hlip
    have hr12 : (reconstruction .dilation adj marker1 img).getD p 0 ≤
        (reconstruction .dilation adj marker2 img).getD p 0 + c := by
      have hgd := hiter.2 p hpr1
      rwa [getD_map_add _ c p hpr2] at hgd
    have hr12e : (reconstruction .dilation adj marker1 img)[p] ≤
        (reconstruction .dilation adj marker2 img)[p] + c := by
      rw [← List.getD_eq_getElem _ (0 : α) hpr1, ← List.getD_eq_getElem _ (0 : α) hpr2]
      exact hr12
    rw [List.getD_eq_getElem _ _ (by simpa using hp),
      List.getD_eq_getElem _ _ (by simpa using hp1)]
    simp only [List.getElem_map, List.getElem_zipWith]
    split_ifs with hc2 hc1
    · exact le_rfl
    · exfalso
      apply hc1
      calc t1 ≤ t2 - c := le_sub_iff_add_le.mpr ht
        _ ≤ (img[p] - (reconstruction .dilation adj marker2 img)[p]) - c :=
            sub_le_sub_right hc2 c
        _ = img[p] - ((reconstruction .dilation adj marker2 img)[p] + c) := by
            abel
        _ ≤ img[p] - (reconstruction .dilation adj marker1 img)[p] :=
            sub_le_sub_left hr12e _
    · exact Nat.zero_le _
    · exact Nat.zero_le _
  · rw [List.getD_eq_default _ _ (by simpa using not_lt.mp hp)]
    exact Nat.zero_le _

end Monotonicity

end Extrema

/-- **C6**: a larger height threshold marks fewer or equal pixels.  For integer
images (in range, `0 ≤ h1 < h2 ≤ tmax - tmin` so both calls succeed) the mask
of `h_maxima(image, h2)` is pixelwise at most the mask of
`h_maxima(image, h1)`, and likewise unconditionally for floating images. -/
theorem C6_mask_antitone_in_h :
    (∀ tmin tmax adj (img : List ℤ) h1 h2 m1 m2,
        0 ≤ h1 → h1 < h2 → h2 ≤ tmax - tmin → Extrema.InRange tmin tmax img →
        Extrema.hMaximaInt tmin tmax adj img h1 = .ok m1 →
        Extrema.hMaximaInt tmin tmax adj img h2 = .ok m2 →
        m2.length = m1.length ∧ ∀ p, m2.getD p 0 ≤ m1.getD p 0) ∧
    (∀ res adj (img : List ℚ) h1 h2, h1 < h2 →
        (Extrema.hMaximaFloat res adj img h2).length =
          (Extrema.hMaximaFloat res adj img h1).length ∧
        ∀ p, (Extrema.hMaximaFloat res adj img h2).getD p 0 ≤
          (Extrema.hMaximaFloat res adj img h1).getD p 0) := by
  constructor
  · intro tmin tmax adj img h1 h2 m1 m2 hh1 h12 hh2 hr hok1 hok2
    obtain ⟨hl1, _⟩ := Extrema.hMaximaInt_ok _ _ _ _ _ _ hok1
    obtain ⟨hl2, _⟩ := Extrema.hMaximaInt_ok _ _ _ _ _ _ hok2
    refine ⟨hl2.trans hl1.symm, ?_⟩
    unfold Extrema.hMaximaInt at hok1 hok2
    rw [Extrema.subtractConstantClip_eq tmin tmax img h1 hh1 (by omega) hr] at hok1
    rw [Extrema.subtractConstantClip_eq tmin tmax img h2 (by omega) hh2 hr] at hok2
    cases hok1
    cases hok2
    intro p
    refine Extrema.mask_le_mask adj img
      (img.map fun v => if v - h1 < tmin then tmin else v - h1)
      (img.map fun v => if v - h2 < tmin then tmin else v - h2)
      (h2 - h1) (h1 - 10 * 0) (h2 - 10 * 0) (by omega) (by omega) (by simp) ?_ p
    refine ⟨by simp, ?_⟩
    intro q hq
    rw [List.length_map] at hq
    rw [Extrema.getD_map_fn _ img q hq,
      Extrema.getD_map_add _ (h2 - h1) q (by simpa using hq),
      Extrema.getD_map_fn _ img q hq]
    split_ifs <;> omega
  · intro res adj img h1 h2 h12
    refine ⟨((Extrema.hMaximaFloat_spec res adj img h2).1).trans
      ((Extrema.hMaximaFloat_spec res adj img h1).1).symm, ?_⟩
    intro p
    show (Extrema.hMaximaFloat res adj img h2).getD p 0 ≤
      (Extrema.hMaximaFloat res adj img h1).getD p 0
    unfold Extrema.hMaximaFloat
    refine Extrema.mask_le_mask adj img
      (img.map fun v => v - h1) (img.map fun v => v - h2)
      (h2 - h1) (h1 - 10 * res) (h2 - 10 * res)
      (by linarith) (by linarith) (by simp) ?_ p
    refine ⟨by simp, ?_⟩
    intro q hq
    rw [List.length_map] at hq
    rw [Extrema.getD_map_fn _ img q hq,
      Extrema.getD_map_add _ (h2 - h1) q (by simpa using hq),
      Extrema.getD_map_fn _ img q hq]
    linarith

/-- Witness for C6: the uint8 image `[0, 5]` with `h1 = 1 < h2 = 3`, and the
rational image `[0, 5]` with resolution `1/1000`. -/
theorem C6_mask_antitone_in_h_witness :
    (([0, 1] : List ℕ).length = ([0, 1] : List ℕ).length ∧
      ∀ p, ([0, 1] : List ℕ).getD p 0 ≤ ([0, 1] : List ℕ).getD p 0) ∧
    ((Extrema.hMaximaFloat (1 / 1000) (fun _ _ => true) [0, 5] 3).length =
        (Extrema.hMaximaFloat (1 / 1000) (fun _ _ => true) [0, 5] 1).length ∧
      ∀ p, (Extrema.hMaximaFloat (1 / 1000) (fun _ _ => true) [0, 5] 3).getD p 0 ≤
        (Extrema.hMaximaFloat (1 / 1000) (fun _ _ => true) [0, 5] 1).getD p 0) :=
  ⟨C6_mask_antitone_in_h.1 0 255 (fun _ _ => true) [0, 5] 1 3 [0, 1] [0, 1]
      (by decide) (by decide) (by decide)
      (by intro v hv; fin_cases hv <;> exact ⟨by decide, by decide⟩) rfl rfl,
   C6_mask_antitone_in_h.2 (1 / 1000) (fun _ _ => true) [0, 5] 1 3 (by norm_num)⟩
